import Mathlib

/-!
Verification development for the `reflector` compile-time struct reflection
framework. We shallowly embed the C++ data model: a language of field types
(scalars with explicit size and alignment, fixed-size arrays, nested
aggregates), the standard aggregate layout rules the compiler applies, the
loophole-based automatic field discovery (field counting by trial aggregate
construction with decoys, per-slot type capture through `latch`, which applies
`std::remove_all_extents`), the manual provider (`provide`, which flattens
array-typed selected fields), the descriptor compatibility check, and the
reflection view's storage-tuple-based offset computation and member access.

Modelled from the spec: the external `supertuple` ordered heterogeneous
container (not part of this repository's sources) is assumed to lay its
elements out in declaration order following the standard aggregate layout
rules, exactly like a struct whose fields are the tuple's elements; this is
the layout assumption the source's `static_assert` in `descriptor_t` and the
storage-tuple offset probing rely upon.
-/

namespace Reflector

/-- A C++ object type as far as layout and reflection are concerned: a scalar
with a given size and alignment, a fixed-size array, or an aggregate struct
with an ordered field list. -/
inductive Ty : Type where
  | scalar (size align : Nat)
  | array (elem : Ty) (len : Nat)
  | struct (fields : List Ty)

/-- Rounds `off` up to the next multiple of the alignment `a`. -/
def alignTo (off a : Nat) : Nat := ((off + a - 1) / a) * a

mutual

/-- Models `alignof` of a type: scalars carry their alignment, an array is aligned like
its element, a struct like its most-aligned field (1 when empty). -/
def alignOf : Ty → Nat
  | .scalar _ a => a
  | .array e _ => alignOf e
  | .struct fs => alignsMax fs

/-- The maximum alignment among a list of field types, at least 1. -/
def alignsMax : List Ty → Nat
  | [] => 1
  | t :: ts => max (alignOf t) (alignsMax ts)

end

mutual

/-- Models `sizeof` of a type under the standard aggregate layout rules: each struct
field is placed at the next offset suitably aligned for it, and the struct's
size is the end offset rounded up to the struct's alignment (at least 1, as
for C++ empty structs). -/
def tySize : Ty → Nat
  | .scalar s _ => s
  | .array e n => n * tySize e
  | .struct fs => max 1 (alignTo (structEnd 0 fs) (alignsMax fs))

/-- The end offset after laying out the fields `fs` one after another starting
at offset `off`, aligning each field to its own alignment. -/
def structEnd : Nat → List Ty → Nat
  | off, [] => off
  | off, t :: ts => structEnd (alignTo off (alignOf t) + tySize t) ts

end

mutual

/-- Well-formedness of a type as a C++ object type: positive sizes and
alignments, scalar sizes are multiples of their alignment, arrays are
non-empty. -/
def wfTy : Ty → Bool
  | .scalar s a => decide (0 < a) && decide (0 < s) && decide (s % a = 0)
  | .array e n => decide (0 < n) && wfTy e
  | .struct fs => wfFields fs

/-- Well-formedness of every type in a field list. -/
def wfFields : List Ty → Bool
  | [] => true
  | t :: ts => wfTy t && wfFields ts

end

/-- Models `std::remove_all_extents`: strips all array extents off a type. -/
def removeAllExtents : Ty → Ty
  | .array e _ => removeAllExtents e
  | .scalar s a => .scalar s a
  | .struct fs => .struct fs

/-- The number of flattened entries a single field contributes: arrays
contribute one entry per element, recursively; anything else is one entry. -/
def flatCount : Ty → Nat
  | .array e n => n * flatCount e
  | .scalar _ _ => 1
  | .struct _ => 1

/-- The initializer slots one declared field occupies during aggregate
construction with decoys: an array field cannot be initialized whole from a
decoy expression, so brace elision hands one slot to each element; a scalar or
nested struct field is initialized whole through the decoy's conversion
operator and occupies a single slot. -/
def slotsOfField : Ty → List Ty
  | .array e n => List.flatten (List.replicate n (slotsOfField e))
  | .scalar s a => [.scalar s a]
  | .struct fs => [.struct fs]

/-- All initializer slots of an aggregate with declared fields `fields`, in
order. -/
def slotTypes (fields : List Ty) : List Ty :=
  List.flatten (fields.map slotsOfField)

/-- Whether aggregate construction `T{d0, ..., d(k-1)}` with `k` decoy
initializers is well-formed: C++ accepts at most as many initializer clauses
as there are (brace-elided) slots, and fewer is always fine for a trivial
aggregate. -/
def accepts (fields : List Ty) (k : Nat) : Bool :=
  decide (k ≤ (slotTypes fields).length)

/-- Models `detail::count`: having succeeded to construct the target with `k` decoys,
tries one more; on the first SFINAE failure the fallback overload returns the
pack size minus one, i.e. the last successful arity. -/
def countFrom (fields : List Ty) (k : Nat) : Nat :=
  if h : accepts fields k = true then countFrom fields (k + 1) else k - 1
termination_by (slotTypes fields).length + 1 - k
decreasing_by
  simp only [accepts, decide_eq_true_eq] at h
  omega

/-- Models `detail::count<T>(0)`: the field-counting search starting at arity 0. -/
def fieldCount (fields : List Ty) : Nat := countFrom fields 0

/-- Models `latch(tag_t<T, i>())`: the type captured for slot `i`, which is the type
the `i`-th decoy converted to, with all array extents removed (the injector
returns `std::remove_all_extents<P>::type{}`). -/
def latchType (fields : List Ty) (i : Nat) : Ty :=
  removeAllExtents ((slotTypes fields).getD i (Ty.scalar 0 1))

/-- Models `detail::loophole<T>()`: the reflection tuple derived by the automatic
mechanism, one latched type per counted slot. -/
def loopholeTuple (fields : List Ty) : List Ty :=
  (List.range (fieldCount fields)).map (latchType fields)

/-- Models `detail::flatten`: a selected field of type `t` becomes
`sizeof(t) / sizeof(remove_all_extents(t))` entries of its extentless type. -/
def flatten (t : Ty) : List Ty :=
  List.replicate (tySize t / tySize (removeAllExtents t)) (removeAllExtents t)

/-- Models `provide(R T::*...)`: the manual mechanism's reflection tuple, obtained by
flattening each selected field and concatenating the pieces with a left
fold. -/
def provideTuple (fields : List Ty) : List Ty :=
  List.foldl (fun a b => a ++ b) [] (fields.map flatten)

/-- Standard sequential layout of a list of `(size, alignment)` items starting
at offset `off`: each item is placed at the next offset aligned for it. This
is how the compiler lays out both a struct's fields and the elements of the
supertuple container (modelled from the spec, see the header comment). -/
def layoutFrom : Nat → List (Nat × Nat) → List Nat
  | _, [] => []
  | off, (s, a) :: rest => alignTo off a :: layoutFrom (alignTo off a + s) rest

/-- The end offset after sequentially laying out `(size, alignment)` items
starting at `off`. -/
def layoutEnd : Nat → List (Nat × Nat) → Nat
  | off, [] => off
  | off, (s, a) :: rest => layoutEnd (alignTo off a + s) rest

/-- The `(size, alignment)` footprint of a type. -/
def sizeAlign (t : Ty) : Nat × Nat := (tySize t, alignOf t)

/-- Models `alignof(detail::storage_t<S, A>)`: the probing cell is an `alignas(A)`
struct holding a byte array, so its alignment is `A` (at least 1). -/
def cellAlign (A : Nat) : Nat := max A 1

/-- Models `sizeof(detail::storage_t<S, A>)`: `S` bytes padded up to the cell's
alignment. -/
def cellSize (S A : Nat) : Nat := alignTo S (cellAlign A)

/-- The `(size, alignment)` footprint of the storage cell
`storage_t<sizeof(R), alignof(R)>` probing for a field of type `R`. -/
def storageItem (R : Ty) : Nat × Nat :=
  (cellSize (tySize R) (alignOf R), cellAlign (alignOf R))

/-- The cell offsets inside a `storage_tuple_t` instance for the reflection
tuple `Rs`: one storage cell per extracted field type, laid out sequentially. -/
def storageOffsets (Rs : List Ty) : List Nat :=
  layoutFrom 0 (Rs.map storageItem)

/-- Models `reflection_t::offset<i>()`: the address of cell `i` of a value of the
loophole-derived storage tuple minus the address of cell `0`, as a
`ptrdiff_t`. -/
def offset (fields : List Ty) (i : Nat) : Int :=
  ((storageOffsets (loopholeTuple fields)).getD i 0 : Int)
    - ((storageOffsets (loopholeTuple fields)).getD 0 0 : Int)

/-- Models `reflection_t::member<i>(target)` (and hence the reference stored in the
view by `extract` and returned by `get<i>`): the instance's base address plus
`offset<i>()`. -/
def memberAddr (fields : List Ty) (base : Nat) (i : Nat) : Int :=
  (base : Int) + offset fields i

/-- The flattened-entry addresses a single field of type `t` placed at `base`
really occupies: one address per flattened entry, each entry being an array
element (recursively) or the whole field. -/
def flatAddrsOfField (base : Nat) (t : Ty) : List Nat :=
  (List.range (flatCount t)).map (fun j => base + j * tySize (removeAllExtents t))

/-- The true byte offsets of the flattened fields of an aggregate whose
declared fields are laid out from offset `off` by the compiler. -/
def trueOffsetsFrom : Nat → List Ty → List Nat
  | _, [] => []
  | off, t :: ts =>
      flatAddrsOfField (alignTo off (alignOf t)) t
        ++ trueOffsetsFrom (alignTo off (alignOf t) + tySize t) ts

/-- The true byte offsets, within an instance, of the flattened fields of an
aggregate with declared fields `fields`. -/
def trueOffsets (fields : List Ty) : List Nat := trueOffsetsFrom 0 fields

/-- The byte size of the `i`-th flattened field. -/
def fieldSize (fields : List Ty) (i : Nat) : Nat :=
  tySize ((loopholeTuple fields).getD i (Ty.scalar 0 1))

/-- A flat byte-addressed memory. -/
def Mem : Type := Nat → Nat

/-- Writes the byte list `bs` into memory starting at `addr`. -/
def writeBytes (m : Mem) (addr : Nat) (bs : List Nat) : Mem :=
  fun x => if addr ≤ x ∧ x < addr + bs.length then bs.getD (x - addr) 0 else m x

/-- Reads `n` bytes of memory starting at `addr`. -/
def readBytes (m : Mem) (addr n : Nat) : List Nat :=
  (List.range n).map (fun j => m (addr + j))

/-- Reads the bytes of the `i`-th flattened field of an instance of the
aggregate `fields` based at `base`. -/
def readField (m : Mem) (fields : List Ty) (base i : Nat) : List Nat :=
  readBytes m (base + (trueOffsets fields).getD i 0) (fieldSize fields i)

/-- The `descriptor_t` compatibility `static_assert`: the reflection tuple
(the elements `Rs` laid out in order, modelled from the spec as a struct with
those fields) must match the target type's size and alignment. -/
def descriptorOk (T : Ty) (Rs : List Ty) : Bool :=
  decide (tySize (Ty.struct Rs) = tySize T)
    && decide (alignOf (Ty.struct Rs) = alignOf T)

/-- The number of trial constructions the counting search performs from arity
`k` on: one trial per arity probed, including the final failing one. -/
def countSteps (fields : List Ty) (k : Nat) : Nat :=
  if h : accepts fields k = true then countSteps fields (k + 1) + 1 else 1
termination_by (slotTypes fields).length + 1 - k
decreasing_by
  simp only [accepts, decide_eq_true_eq] at h
  omega

/-- The total number of trial arities probed by the counting search. -/
def numTrials (fields : List Ty) : Nat := countSteps fields 0

/-! ### Arithmetic facts about alignment rounding -/

theorem alignTo_zero (a : Nat) : alignTo 0 a = 0 := by
  rcases a with _ | n
  · simp [alignTo]
  · simp [alignTo, Nat.div_eq_of_lt (Nat.lt_succ_self n)]

theorem le_alignTo {a : Nat} (ha : 0 < a) (c : Nat) : c ≤ alignTo c a := by
  have h1 : a * ((c + a - 1) / a) + (c + a - 1) % a = c + a - 1 :=
    Nat.div_add_mod _ _
  have h2 : (c + a - 1) % a < a := Nat.mod_lt _ ha
  unfold alignTo
  rw [Nat.mul_comm]
  omega

theorem dvd_alignTo (c a : Nat) : a ∣ alignTo c a :=
  ⟨(c + a - 1) / a, Nat.mul_comm _ _⟩

theorem alignTo_eq_of_dvd {a c : Nat} (ha : 0 < a) (h : a ∣ c) : alignTo c a = c := by
  obtain ⟨k, rfl⟩ := h
  unfold alignTo
  have h1 : a * k + a - 1 = a - 1 + k * a := by
    have := Nat.mul_comm a k
    omega
  rw [h1, Nat.add_mul_div_right _ _ ha, Nat.div_eq_of_lt (by omega), Nat.zero_add,
    Nat.mul_comm]

/-! ### Basic well-formedness facts -/

theorem alignsMax_pos (fs : List Ty) : 0 < alignsMax fs := by
  induction fs with
  | nil => simp [alignsMax]
  | cons t ts ih => simp only [alignsMax]; omega

theorem alignOf_pos : ∀ t : Ty, wfTy t = true → 0 < alignOf t
  | .scalar s a, h => by
      simp only [wfTy, Bool.and_eq_true, decide_eq_true_eq] at h
      simpa [alignOf] using h.1.1
  | .array e n, h => by
      simp only [wfTy, Bool.and_eq_true] at h
      simpa [alignOf] using alignOf_pos e h.2
  | .struct fs, _ => by simpa [alignOf] using alignsMax_pos fs

theorem tySize_pos : ∀ t : Ty, wfTy t = true → 0 < tySize t
  | .scalar s a, h => by
      simp only [wfTy, Bool.and_eq_true, decide_eq_true_eq] at h
      simpa [tySize] using h.1.2
  | .array e n, h => by
      simp only [wfTy, Bool.and_eq_true, decide_eq_true_eq] at h
      simpa [tySize] using Nat.mul_pos h.1 (tySize_pos e h.2)
  | .struct fs, _ => by simp [tySize]

theorem wfFields_head {t : Ty} {ts : List Ty} (h : wfFields (t :: ts) = true) :
    wfTy t = true := by
  simp only [wfFields, Bool.and_eq_true] at h
  exact h.1

theorem wfFields_tail {t : Ty} {ts : List Ty} (h : wfFields (t :: ts) = true) :
    wfFields ts = true := by
  simp only [wfFields, Bool.and_eq_true] at h
  exact h.2

theorem structEnd_mono : ∀ (fs : List Ty), wfFields fs = true →
    ∀ off : Nat, off ≤ structEnd off fs
  | [], _, off => Nat.le_refl _
  | t :: ts, h, off => by
      simp only [structEnd]
      calc off ≤ alignTo off (alignOf t) := le_alignTo (alignOf_pos t (wfFields_head h)) off
        _ ≤ alignTo off (alignOf t) + tySize t := Nat.le_add_right _ _
        _ ≤ structEnd (alignTo off (alignOf t) + tySize t) ts :=
            structEnd_mono ts (wfFields_tail h) _

theorem alignOf_dvd_tySize : ∀ t : Ty, wfTy t = true → alignOf t ∣ tySize t
  | .scalar s a, h => by
      simp only [wfTy, Bool.and_eq_true, decide_eq_true_eq] at h
      simpa [alignOf, tySize] using Nat.dvd_of_mod_eq_zero h.2
  | .array e n, h => by
      simp only [wfTy, Bool.and_eq_true] at h
      simpa [alignOf, tySize] using Dvd.dvd.mul_left (alignOf_dvd_tySize e h.2) n
  | .struct [], _ => by simp [alignOf, alignsMax, tySize]
  | .struct (t :: ts), h => by
      simp only [wfTy] at h
      have hpos : 0 < structEnd 0 (t :: ts) := by
        simp only [structEnd]
        have h1 : 0 < tySize t := tySize_pos t (wfFields_head h)
        have h2 := structEnd_mono ts (wfFields_tail h) (alignTo 0 (alignOf t) + tySize t)
        omega
      have hA : 0 < alignsMax (t :: ts) := alignsMax_pos _
      have hdvd : alignsMax (t :: ts) ∣ alignTo (structEnd 0 (t :: ts)) (alignsMax (t :: ts)) :=
        dvd_alignTo _ _
      have hle : 0 < alignTo (structEnd 0 (t :: ts)) (alignsMax (t :: ts)) :=
        Nat.lt_of_lt_of_le hpos (le_alignTo hA _)
      simp only [alignOf, tySize]
      rwa [Nat.max_eq_right hle]

/-! ### Flattening facts -/

theorem wf_removeAllExtents : ∀ t : Ty, wfTy t = true → wfTy (removeAllExtents t) = true
  | .scalar s a, h => h
  | .array e n, h => by
      simp only [wfTy, Bool.and_eq_true] at h
      simpa [removeAllExtents] using wf_removeAllExtents e h.2
  | .struct fs, h => h

theorem alignOf_removeAllExtents : ∀ t : Ty, alignOf (removeAllExtents t) = alignOf t
  | .scalar _ _ => rfl
  | .array e n => by simpa [removeAllExtents, alignOf] using alignOf_removeAllExtents e
  | .struct _ => rfl

theorem removeAllExtents_idem : ∀ t : Ty, removeAllExtents (removeAllExtents t) = removeAllExtents t
  | .scalar _ _ => rfl
  | .array e _ => by simpa [removeAllExtents] using removeAllExtents_idem e
  | .struct _ => rfl

theorem flatCount_pos : ∀ t : Ty, wfTy t = true → 0 < flatCount t
  | .scalar _ _, _ => Nat.one_pos
  | .array e n, h => by
      simp only [wfTy, Bool.and_eq_true, decide_eq_true_eq] at h
      simpa [flatCount] using Nat.mul_pos h.1 (flatCount_pos e h.2)
  | .struct _, _ => Nat.one_pos

theorem tySize_flat : ∀ t : Ty, tySize t = flatCount t * tySize (removeAllExtents t)
  | .scalar _ _ => by simp [flatCount, removeAllExtents]
  | .array e n => by
      simp only [tySize, flatCount, removeAllExtents]
      rw [tySize_flat e, Nat.mul_assoc]
  | .struct _ => by simp [flatCount, removeAllExtents]

theorem flatten_replicate_replicate {α : Type} (x : α) :
    ∀ n m : Nat, List.flatten (List.replicate n (List.replicate m x)) = List.replicate (n * m) x := by
  intro n
  induction n with
  | zero => simp
  | succ k ih =>
      intro m
      simp only [List.replicate_succ, List.flatten_cons, ih m, Nat.succ_mul]
      rw [Nat.add_comm (k * m) m, List.replicate_add]

theorem slotsOfField_eq :
    ∀ t : Ty, slotsOfField t = List.replicate (flatCount t) (removeAllExtents t)
  | .scalar _ _ => rfl
  | .array e n => by
      simp only [slotsOfField, flatCount, removeAllExtents, slotsOfField_eq e]
      exact flatten_replicate_replicate _ n (flatCount e)
  | .struct _ => rfl

theorem slotTypes_append (xs ys : List Ty) :
    slotTypes (xs ++ ys) = slotTypes xs ++ slotTypes ys := by
  simp [slotTypes]

theorem mem_slotTypes_wf {fs : List Ty} (h : wfFields fs = true) :
    ∀ u ∈ slotTypes fs, wfTy u = true := by
  induction fs with
  | nil => simp [slotTypes]
  | cons t ts ih =>
      intro u hu
      have : slotTypes (t :: ts) = slotsOfField t ++ slotTypes ts := by
        simp [slotTypes]
      rw [this, List.mem_append] at hu
      rcases hu with hu | hu
      · rw [slotsOfField_eq t] at hu
        have := List.eq_of_mem_replicate hu
        subst this
        exact wf_removeAllExtents t (wfFields_head h)
      · exact ih (wfFields_tail h) u hu

theorem removeAllExtents_slotTypes {fs : List Ty} :
    ∀ u ∈ slotTypes fs, removeAllExtents u = u := by
  induction fs with
  | nil => simp [slotTypes]
  | cons t ts ih =>
      intro u hu
      have : slotTypes (t :: ts) = slotsOfField t ++ slotTypes ts := by
        simp [slotTypes]
      rw [this, List.mem_append] at hu
      rcases hu with hu | hu
      · rw [slotsOfField_eq t] at hu
        have := List.eq_of_mem_replicate hu
        subst this
        exact removeAllExtents_idem t
      · exact ih u hu

/-! ### The counting search -/

theorem countFrom_spec (fields : List Ty) :
    ∀ d k : Nat, (slotTypes fields).length + 1 = k + d →
      countFrom fields k = (slotTypes fields).length := by
  intro d
  induction d with
  | zero =>
      intro k hk
      unfold countFrom
      have hacc : accepts fields k = false := by
        simp only [accepts, decide_eq_false_iff_not]
        omega
      rw [dif_neg (by simp [hacc])]
      omega
  | succ d ih =>
      intro k hk
      unfold countFrom
      have hacc : accepts fields k = true := by
        simp only [accepts, decide_eq_true_eq]
        omega
      rw [dif_pos hacc]
      exact ih (k + 1) (by omega)

theorem fieldCount_eq (fields : List Ty) : fieldCount fields = (slotTypes fields).length :=
  countFrom_spec fields ((slotTypes fields).length + 1) 0 (by omega)

theorem countSteps_spec (fields : List Ty) :
    ∀ d k : Nat, (slotTypes fields).length + 1 = k + d → countSteps fields k = d + 1 := by
  intro d
  induction d with
  | zero =>
      intro k hk
      unfold countSteps
      have hacc : accepts fields k = false := by
        simp only [accepts, decide_eq_false_iff_not]
        omega
      rw [dif_neg (by simp [hacc])]
  | succ d ih =>
      intro k hk
      unfold countSteps
      have hacc : accepts fields k = true := by
        simp only [accepts, decide_eq_true_eq]
        omega
      rw [dif_pos hacc, ih (k + 1) (by omega)]

theorem numTrials_eq (fields : List Ty) :
    numTrials fields = (slotTypes fields).length + 2 := by
  have := countSteps_spec fields ((slotTypes fields).length + 1) 0 (by omega)
  simpa [numTrials] using this

/-! ### The two reflection tuples coincide with the slot sequence -/

theorem map_getD_range {α β : Type} (f : α → β) (d : α) :
    ∀ l : List α, (List.range l.length).map (fun i => f (l.getD i d)) = l.map f := by
  intro l
  induction l with
  | nil => simp
  | cons x xs ih =>
      simp only [List.length_cons, List.range_succ_eq_map, List.map_cons, List.map_map,
        List.cons.injEq]
      refine ⟨rfl, ?_⟩
      have hcomp : ((fun i => f ((x :: xs).getD i d)) ∘ Nat.succ)
          = fun i => f (xs.getD i d) := by
        funext i
        rfl
      rw [hcomp, ih]

theorem loopholeTuple_eq (fields : List Ty) : loopholeTuple fields = slotTypes fields := by
  unfold loopholeTuple latchType
  rw [fieldCount_eq, map_getD_range removeAllExtents (Ty.scalar 0 1) (slotTypes fields)]
  calc (slotTypes fields).map removeAllExtents
      = (slotTypes fields).map id :=
        List.map_congr_left (fun u hu => removeAllExtents_slotTypes u hu)
    _ = slotTypes fields := List.map_id _

theorem foldl_append_eq_flatten {α : Type} :
    ∀ (L : List (List α)) (acc : List α),
      List.foldl (fun a b => a ++ b) acc L = acc ++ L.flatten := by
  intro L
  induction L with
  | nil => simp
  | cons x xs ih => intro acc; simp [ih]

theorem flatten_eq_slotsOfField {t : Ty} (h : wfTy t = true) :
    flatten t = slotsOfField t := by
  unfold flatten
  rw [slotsOfField_eq t, tySize_flat t,
    Nat.mul_div_cancel _ (tySize_pos _ (wf_removeAllExtents t h))]

theorem provideTuple_eq {fields : List Ty} (h : wfFields fields = true) :
    provideTuple fields = slotTypes fields := by
  unfold provideTuple slotTypes
  rw [foldl_append_eq_flatten, List.nil_append]
  congr 1
  induction fields with
  | nil => simp
  | cons t ts ih =>
      simp only [List.map_cons, List.cons.injEq]
      exact ⟨flatten_eq_slotsOfField (wfFields_head h), ih (wfFields_tail h)⟩

/-! ### Layout lemmas -/

theorem layoutFrom_length : ∀ (items : List (Nat × Nat)) (off : Nat),
    (layoutFrom off items).length = items.length
  | [], _ => rfl
  | (s, a) :: rest, off => by
      simp [layoutFrom, layoutFrom_length rest]

theorem layoutFrom_append : ∀ (xs ys : List (Nat × Nat)) (off : Nat),
    layoutFrom off (xs ++ ys) = layoutFrom off xs ++ layoutFrom (layoutEnd off xs) ys
  | [], ys, off => rfl
  | (s, a) :: rest, ys, off => by
      simp only [List.cons_append, layoutFrom, layoutEnd, List.cons.injEq, true_and]
      exact layoutFrom_append rest ys _

theorem layoutEnd_append : ∀ (xs ys : List (Nat × Nat)) (off : Nat),
    layoutEnd off (xs ++ ys) = layoutEnd (layoutEnd off xs) ys
  | [], ys, off => rfl
  | (s, a) :: rest, ys, off => by
      simp only [List.cons_append, layoutEnd]
      exact layoutEnd_append rest ys _

theorem layoutFrom_replicate {s a : Nat} (ha : 0 < a) (hd : a ∣ s) :
    ∀ (n : Nat) (off : Nat),
      layoutFrom off (List.replicate n (s, a))
        = (List.range n).map (fun j => alignTo off a + j * s) := by
  intro n
  induction n with
  | zero => intro off; simp [layoutFrom]
  | succ k ih =>
      intro off
      simp only [List.replicate_succ, layoutFrom, List.range_succ_eq_map, List.map_cons,
        List.map_map, Nat.zero_mul, Nat.add_zero, List.cons.injEq, true_and]
      rw [ih (alignTo off a + s)]
      have heq : alignTo (alignTo off a + s) a = alignTo off a + s :=
        alignTo_eq_of_dvd ha (Nat.dvd_add (dvd_alignTo off a) hd)
      apply List.map_congr_left
      intro j _
      simp only [Function.comp_apply, heq, Nat.succ_mul, Nat.succ_eq_add_one]
      omega

theorem layoutEnd_replicate_of_dvd {s a : Nat} (ha : 0 < a) (hd : a ∣ s) :
    ∀ (n : Nat) (off : Nat), a ∣ off →
      layoutEnd off (List.replicate n (s, a)) = off + n * s := by
  intro n
  induction n with
  | zero => intro off _; simp [layoutEnd]
  | succ k ih =>
      intro off hoff
      simp only [List.replicate_succ, layoutEnd]
      rw [alignTo_eq_of_dvd ha hoff, ih (off + s) (Nat.dvd_add hoff hd)]
      ring

theorem layoutEnd_replicate {s a : Nat} (ha : 0 < a) (hd : a ∣ s) (n : Nat) (hn : 0 < n)
    (off : Nat) :
    layoutEnd off (List.replicate n (s, a)) = alignTo off a + n * s := by
  obtain ⟨m, rfl⟩ : ∃ m, n = m + 1 := ⟨n - 1, by omega⟩
  simp only [List.replicate_succ, layoutEnd]
  rw [layoutEnd_replicate_of_dvd ha hd m (alignTo off a + s)
    (Nat.dvd_add (dvd_alignTo off a) hd)]
  ring

theorem layoutFrom_lower : ∀ (items : List (Nat × Nat)) (off : Nat),
    (∀ p ∈ items, 0 < p.2) → ∀ i, i < items.length →
      off ≤ (layoutFrom off items).getD i 0
  | [], _, _, i, hi => by simp at hi
  | (s, a) :: rest, off, hpos, 0, _ => by
      simpa [layoutFrom] using le_alignTo (hpos (s, a) (by simp)) off
  | (s, a) :: rest, off, hpos, i + 1, hi => by
      simp only [layoutFrom, List.getD_cons_succ]
      have ha : 0 < a := hpos (s, a) (by simp)
      calc off ≤ alignTo off a := le_alignTo ha off
        _ ≤ alignTo off a + s := Nat.le_add_right _ _
        _ ≤ (layoutFrom (alignTo off a + s) rest).getD i 0 :=
            layoutFrom_lower rest _ (fun p hp => hpos p (by simp [hp])) i
              (by simpa using hi)

theorem layoutFrom_sep : ∀ (items : List (Nat × Nat)) (off : Nat),
    (∀ p ∈ items, 0 < p.2) → ∀ j i, j < i → i < items.length →
      (layoutFrom off items).getD j 0 + (items.getD j (0, 1)).1
        ≤ (layoutFrom off items).getD i 0
  | [], _, _, j, i, _, hi => by simp at hi
  | (s, a) :: rest, off, hpos, 0, i + 1, _, hi => by
      simp only [layoutFrom, List.getD_cons_zero, List.getD_cons_succ]
      exact layoutFrom_lower rest _ (fun p hp => hpos p (by simp [hp])) i
        (by simpa using hi)
  | (s, a) :: rest, off, hpos, j + 1, i + 1, hj, hi => by
      simp only [layoutFrom, List.getD_cons_succ]
      exact layoutFrom_sep rest _ (fun p hp => hpos p (by simp [hp])) j i
        (by omega) (by simpa using hi)

theorem getD_map {α β : Type} (f : α → β) (d : β) (e : α) :
    ∀ (l : List α) (i : Nat), i < l.length → (l.map f).getD i d = f (l.getD i e)
  | x :: xs, 0, _ => rfl
  | x :: xs, i + 1, hi => by
      simp only [List.map_cons, List.getD_cons_succ]
      exact getD_map f d e xs i (by simpa using hi)

/-! ### Storage cells mirror real fields -/

theorem cellAlign_eq {R : Ty} (h : wfTy R = true) : cellAlign (alignOf R) = alignOf R :=
  Nat.max_eq_left (alignOf_pos R h)

theorem cellSize_eq {R : Ty} (h : wfTy R = true) :
    cellSize (tySize R) (alignOf R) = tySize R := by
  unfold cellSize
  rw [cellAlign_eq h]
  exact alignTo_eq_of_dvd (alignOf_pos R h) (alignOf_dvd_tySize R h)

theorem storageItem_eq {R : Ty} (h : wfTy R = true) : storageItem R = sizeAlign R := by
  unfold storageItem sizeAlign
  rw [cellSize_eq h, cellAlign_eq h]

theorem storageItem_align_pos (R : Ty) : 0 < (storageItem R).2 := by
  simp [storageItem, cellAlign]

/-! ### The storage-tuple offsets equal the true flattened field offsets -/

theorem storage_core : ∀ (fs : List Ty), wfFields fs = true → ∀ off : Nat,
    layoutFrom off ((slotTypes fs).map storageItem) = trueOffsetsFrom off fs
    ∧ layoutEnd off ((slotTypes fs).map storageItem) = structEnd off fs
  | [], _, off => by simp [slotTypes, layoutFrom, layoutEnd, trueOffsetsFrom, structEnd]
  | t :: ts, h, off => by
      have hwt : wfTy t = true := wfFields_head h
      have hwts : wfFields ts = true := wfFields_tail h
      have hwr : wfTy (removeAllExtents t) = true := wf_removeAllExtents t hwt
      have hra : 0 < alignOf (removeAllExtents t) := alignOf_pos _ hwr
      have hrd : alignOf (removeAllExtents t) ∣ tySize (removeAllExtents t) :=
        alignOf_dvd_tySize _ hwr
      have hsplit : slotTypes (t :: ts) = slotsOfField t ++ slotTypes ts := by
        simp [slotTypes]
      have hfield : (slotsOfField t).map storageItem
          = List.replicate (flatCount t) (tySize (removeAllExtents t), alignOf (removeAllExtents t)) := by
        rw [slotsOfField_eq t, List.map_replicate, storageItem_eq hwr]
        rfl
      have ih := storage_core ts hwts (alignTo off (alignOf t) + tySize t)
      constructor
      · rw [hsplit, List.map_append, layoutFrom_append, hfield]
        simp only [trueOffsetsFrom]
        congr 1
        · rw [layoutFrom_replicate hra hrd]
          unfold flatAddrsOfField
          rw [alignOf_removeAllExtents t]
        · rw [layoutEnd_replicate hra hrd (flatCount t) (flatCount_pos t hwt),
            alignOf_removeAllExtents t, ← tySize_flat t]
          exact ih.1
      · rw [hsplit, List.map_append, layoutEnd_append, hfield,
          layoutEnd_replicate hra hrd (flatCount t) (flatCount_pos t hwt),
          alignOf_removeAllExtents t, ← tySize_flat t]
        simpa [structEnd] using ih.2

theorem storageOffsets_eq_trueOffsets {fs : List Ty} (h : wfFields fs = true) :
    storageOffsets (loopholeTuple fs) = trueOffsets fs := by
  unfold storageOffsets trueOffsets
  rw [loopholeTuple_eq fs]
  exact (storage_core fs h 0).1

theorem storageOffsets_head (Rs : List Ty) : (storageOffsets Rs).getD 0 0 = 0 := by
  rcases Rs with _ | ⟨R, Rs⟩
  · rfl
  · simp [storageOffsets, layoutFrom, alignTo_zero]

theorem offset_eq {fs : List Ty} (h : wfFields fs = true) (i : Nat) :
    offset fs i = (((trueOffsets fs).getD i 0 : Nat) : Int) := by
  unfold offset
  rw [storageOffsets_head, storageOffsets_eq_trueOffsets h]
  omega

theorem memberAddr_eq {fs : List Ty} (h : wfFields fs = true) (base i : Nat) :
    memberAddr fs base i = ((base + (trueOffsets fs).getD i 0 : Nat) : Int) := by
  unfold memberAddr
  rw [offset_eq h]
  omega

/-! ### Memory read/write lemmas -/

theorem readBytes_writeBytes (m : Mem) (addr : Nat) (bs : List Nat) :
    readBytes (writeBytes m addr bs) addr bs.length = bs := by
  unfold readBytes writeBytes
  have h1 : ∀ j ∈ List.range bs.length,
      (if addr ≤ addr + j ∧ addr + j < addr + bs.length then bs.getD (addr + j - addr) 0
        else m (addr + j)) = bs.getD j 0 := by
    intro j hj
    rw [List.mem_range] at hj
    rw [if_pos (by omega)]
    congr 1
    omega
  rw [List.map_congr_left h1]
  simpa using map_getD_range (id : Nat → Nat) 0 bs

theorem readBytes_writeBytes_disjoint (m : Mem) (a1 a2 n : Nat) (bs : List Nat)
    (h : a2 + n ≤ a1 ∨ a1 + bs.length ≤ a2) :
    readBytes (writeBytes m a1 bs) a2 n = readBytes m a2 n := by
  unfold readBytes writeBytes
  apply List.map_congr_left
  intro j hj
  rw [List.mem_range] at hj
  rw [if_neg (by omega)]

/-! ### Fields occupy pairwise disjoint byte ranges -/

theorem fieldSize_eq (fs : List Ty) (i : Nat) :
    fieldSize fs i = tySize ((slotTypes fs).getD i (Ty.scalar 0 1)) := by
  unfold fieldSize
  rw [loopholeTuple_eq]

theorem trueOffsets_eq_layout {fs : List Ty} (h : wfFields fs = true) :
    trueOffsets fs = layoutFrom 0 ((slotTypes fs).map storageItem) :=
  ((storage_core fs h 0).1).symm

theorem field_sep {fs : List Ty} (h : wfFields fs = true) {j i : Nat} (hji : j < i)
    (hi : i < (loopholeTuple fs).length) :
    (trueOffsets fs).getD j 0 + fieldSize fs j ≤ (trueOffsets fs).getD i 0 := by
  have hlen : (loopholeTuple fs).length = (slotTypes fs).length := by
    rw [loopholeTuple_eq]
  rw [hlen] at hi
  have hpos : ∀ p ∈ (slotTypes fs).map storageItem, 0 < p.2 := by
    intro p hp
    rw [List.mem_map] at hp
    obtain ⟨R, _, rfl⟩ := hp
    exact storageItem_align_pos R
  have hsep := layoutFrom_sep ((slotTypes fs).map storageItem) 0 hpos j i hji
    (by simpa using hi)
  have hj : j < (slotTypes fs).length := by omega
  have hitem : (((slotTypes fs).map storageItem).getD j (0, 1)).1 = fieldSize fs j := by
    rw [getD_map storageItem (0, 1) (Ty.scalar 0 1) (slotTypes fs) j hj]
    have hwj : wfTy ((slotTypes fs).getD j (Ty.scalar 0 1)) = true := by
      apply mem_slotTypes_wf h
      rw [List.getD_eq_getElem _ _ hj]
      exact List.getElem_mem _
    rw [fieldSize_eq]
    unfold storageItem
    rw [cellSize_eq hwj]
  rw [trueOffsets_eq_layout h]
  rw [hitem] at hsep
  exact hsep

theorem trueOffsets_mono {fs : List Ty} (h : wfFields fs = true) {j i : Nat} (hji : j ≤ i)
    (hi : i < (loopholeTuple fs).length) :
    (trueOffsets fs).getD j 0 ≤ (trueOffsets fs).getD i 0 := by
  rcases Nat.lt_or_ge j i with hlt | hge
  · have := field_sep h hlt hi
    omega
  · have : j = i := by omega
    subst this
    exact Nat.le_refl _

/-! ### Miscellaneous helpers -/

theorem wfFields_append : ∀ xs ys : List Ty,
    wfFields (xs ++ ys) = (wfFields xs && wfFields ys)
  | [], ys => by simp [wfFields]
  | t :: ts, ys => by
      simp only [List.cons_append, wfFields, List.append_eq, wfFields_append ts ys,
        Bool.and_assoc]

theorem wfFields_mem {fs : List Ty} (h : wfFields fs = true) :
    ∀ t ∈ fs, wfTy t = true := by
  induction fs with
  | nil => simp
  | cons t ts ih =>
      intro u hu
      rcases List.mem_cons.mp hu with rfl | hu
      · exact wfFields_head h
      · exact ih (wfFields_tail h) u hu

theorem getD_append_length {α : Type} (y : α) (d : α) :
    ∀ (xs ys : List α), (xs ++ y :: ys).getD xs.length d = y
  | [], ys => rfl
  | x :: xs, ys => by
      simp only [List.cons_append, List.length_cons, List.getD_cons_succ]
      exact getD_append_length y d xs ys

theorem provideTuple_append (xs ys : List Ty) :
    provideTuple (xs ++ ys) = provideTuple xs ++ provideTuple ys := by
  unfold provideTuple
  rw [foldl_append_eq_flatten, foldl_append_eq_flatten, foldl_append_eq_flatten]
  simp

theorem provideTuple_single (t : Ty) : provideTuple [t] = flatten t := by
  simp [provideTuple, foldl_append_eq_flatten]

theorem slotTypes_replicate_scalar_len (m : Nat) :
    (slotTypes (List.replicate m (Ty.scalar 1 1))).length = m := by
  induction m with
  | zero => rfl
  | succ k ih =>
      simp only [List.replicate_succ, slotTypes, List.map_cons, List.flatten_cons,
        List.length_append] at ih ⊢
      simp only [slotsOfField, List.length_cons, List.length_nil]
      omega

/-! ### The automatically derived descriptor always passes its own check -/

theorem alignsMax_append : ∀ xs ys : List Ty,
    alignsMax (xs ++ ys) = max (alignsMax xs) (alignsMax ys)
  | [], ys => by
      simp only [List.nil_append, alignsMax]
      exact (Nat.max_eq_right (alignsMax_pos ys)).symm
  | t :: ts, ys => by
      simp only [List.cons_append, alignsMax, List.append_eq, alignsMax_append ts ys,
        Nat.max_assoc]

theorem alignsMax_replicate {t : Ty} (ha : 0 < alignOf t) :
    ∀ n : Nat, 0 < n → alignsMax (List.replicate n t) = alignOf t
  | 1, _ => by
      simp only [List.replicate_succ, List.replicate_zero, alignsMax]
      omega
  | n + 2, _ => by
      have := alignsMax_replicate ha (n + 1) (Nat.succ_pos n)
      simp only [List.replicate_succ, alignsMax] at this ⊢
      omega

theorem alignsMax_slotTypes {fs : List Ty} (h : wfFields fs = true) :
    alignsMax (slotTypes fs) = alignsMax fs := by
  induction fs with
  | nil => rfl
  | cons t ts ih =>
      have hsplit : slotTypes (t :: ts) = slotsOfField t ++ slotTypes ts := by
        simp [slotTypes]
      have hra : 0 < alignOf (removeAllExtents t) :=
        alignOf_pos _ (wf_removeAllExtents t (wfFields_head h))
      rw [hsplit, alignsMax_append, slotsOfField_eq t,
        alignsMax_replicate hra (flatCount t) (flatCount_pos t (wfFields_head h)),
        alignOf_removeAllExtents t, ih (wfFields_tail h)]
      simp [alignsMax]

theorem structEnd_eq_layoutEnd : ∀ (ts : List Ty) (off : Nat),
    structEnd off ts = layoutEnd off (ts.map sizeAlign)
  | [], off => rfl
  | t :: ts, off => by
      simp only [structEnd, List.map_cons, layoutEnd, sizeAlign]
      exact structEnd_eq_layoutEnd ts _

theorem structEnd_slotTypes {fs : List Ty} (h : wfFields fs = true) :
    structEnd 0 (slotTypes fs) = structEnd 0 fs := by
  rw [structEnd_eq_layoutEnd]
  have hmap : (slotTypes fs).map sizeAlign = (slotTypes fs).map storageItem :=
    List.map_congr_left (fun u hu => (storageItem_eq (mem_slotTypes_wf h u hu)).symm)
  rw [hmap]
  exact (storage_core fs h 0).2

theorem descriptorOk_loophole {fs : List Ty} (h : wfFields fs = true) :
    descriptorOk (Ty.struct fs) (loopholeTuple fs) = true := by
  unfold descriptorOk
  rw [loopholeTuple_eq]
  simp only [Bool.and_eq_true, decide_eq_true_eq]
  constructor
  · simp only [tySize]
    rw [structEnd_slotTypes h, alignsMax_slotTypes h]
  · simp only [alignOf]
    exact alignsMax_slotTypes h

/-! ## Claim theorems -/

/-- C1. Round-trip identity: for every supported aggregate type (well-formed
field list) and every instance of it (a base address), and for every field
index `i` in `[0, n)`, the address of the reference returned by the reflection
view's `get<i>` — that is, `member<i>`, the instance base plus `offset<i>()`
computed by probing the storage tuple — equals the address of the `i`-th
flattened field of the instance. -/
theorem round_trip_identity (fields : List Ty) (h : wfFields fields = true)
    (base i : Nat) (_hi : i < (loopholeTuple fields).length) :
    memberAddr fields base i = ((base + (trueOffsets fields).getD i 0 : Nat) : Int) :=
  memberAddr_eq h base i

/-- C2. Mechanism parity: for every type reflectable by both mechanisms (the
manual selector list naming exactly the declared fields), the automatic
(loophole) and the manual (`provide`) descriptors yield the same field count,
the same field-type sequence, and the same per-field byte offsets. -/
theorem mechanism_parity (fields : List Ty) (h : wfFields fields = true) :
    (provideTuple fields).length = (loopholeTuple fields).length
    ∧ provideTuple fields = loopholeTuple fields
    ∧ storageOffsets (provideTuple fields) = storageOffsets (loopholeTuple fields) := by
  have he : provideTuple fields = loopholeTuple fields := by
    rw [provideTuple_eq h, loopholeTuple_eq]
  exact ⟨by rw [he], he, by rw [he]⟩

/-- C3. Array flattening: a field declared as a fixed-size array of `k`
scalars of type `E` contributes exactly `k` consecutive entries of type `E`
to the field-type sequence, under both the automatic and the manual
mechanism, preserving element order. -/
theorem array_flattening (pre post : List Ty) (es ea k : Nat)
    (hwf : wfTy (Ty.array (Ty.scalar es ea) k) = true) :
    loopholeTuple (pre ++ Ty.array (Ty.scalar es ea) k :: post)
      = loopholeTuple pre ++ List.replicate k (Ty.scalar es ea) ++ loopholeTuple post
    ∧ provideTuple (pre ++ Ty.array (Ty.scalar es ea) k :: post)
      = provideTuple pre ++ List.replicate k (Ty.scalar es ea) ++ provideTuple post := by
  have hes : 0 < es := by
    simp only [wfTy, Bool.and_eq_true, decide_eq_true_eq] at hwf
    exact hwf.2.1.2
  have hslots : slotsOfField (Ty.array (Ty.scalar es ea) k)
      = List.replicate k (Ty.scalar es ea) := by
    rw [slotsOfField_eq]
    simp [flatCount, removeAllExtents]
  constructor
  · rw [loopholeTuple_eq, loopholeTuple_eq, loopholeTuple_eq,
      slotTypes_append pre (Ty.array (Ty.scalar es ea) k :: post)]
    have : slotTypes (Ty.array (Ty.scalar es ea) k :: post)
        = List.replicate k (Ty.scalar es ea) ++ slotTypes post := by
      simp only [slotTypes, List.map_cons, List.flatten_cons, hslots]
    rw [this, List.append_assoc]
  · have hmid : provideTuple [Ty.array (Ty.scalar es ea) k]
        = List.replicate k (Ty.scalar es ea) := by
      rw [provideTuple_single]
      unfold flatten
      simp only [removeAllExtents, tySize]
      rw [Nat.mul_div_cancel _ hes]
    calc provideTuple (pre ++ Ty.array (Ty.scalar es ea) k :: post)
        = provideTuple pre ++ provideTuple (Ty.array (Ty.scalar es ea) k :: post) :=
          provideTuple_append _ _
      _ = provideTuple pre ++ (provideTuple [Ty.array (Ty.scalar es ea) k]
            ++ provideTuple post) := by
          rw [← provideTuple_append [Ty.array (Ty.scalar es ea) k] post,
            List.singleton_append]
      _ = provideTuple pre ++ List.replicate k (Ty.scalar es ea) ++ provideTuple post := by
          rw [hmid, List.append_assoc]

/-- C4. Write-through: writing a byte string of the field's size through the
address of the reference returned by the view's `get<i>` updates exactly the
`i`-th flattened field of the instance — a subsequent read of that field
returns the written bytes, and every other field reads unchanged. -/
theorem write_through (fields : List Ty) (h : wfFields fields = true)
    (base i : Nat) (hi : i < (loopholeTuple fields).length)
    (bs : List Nat) (hlen : bs.length = fieldSize fields i) (m : Mem) :
    readField (writeBytes m (memberAddr fields base i).toNat bs) fields base i = bs
    ∧ ∀ j, j < (loopholeTuple fields).length → j ≠ i →
        readField (writeBytes m (memberAddr fields base i).toNat bs) fields base j
          = readField m fields base j := by
  have haddr : (memberAddr fields base i).toNat = base + (trueOffsets fields).getD i 0 := by
    rw [memberAddr_eq h base i]
    exact Int.toNat_ofNat _
  constructor
  · unfold readField
    rw [haddr, ← hlen]
    exact readBytes_writeBytes m _ bs
  · intro j hj hne
    unfold readField
    rw [haddr]
    apply readBytes_writeBytes_disjoint
    rcases Nat.lt_or_ge j i with hlt | hge
    · have := field_sep h hlt hi
      omega
    · have hlt : i < j := by omega
      have := field_sep h hlt hj
      omega

/-- C5. FieldCounter correctness: for every aggregate accepted by the automatic
mechanism, the counting search returns the largest arity `k` for which
construction with exactly `k` placeholder initializers is well-formed; the
first failing arity is not counted, and a zero-field aggregate yields 0. -/
theorem field_counter_correct (fields : List Ty) :
    accepts fields (fieldCount fields) = true
    ∧ accepts fields (fieldCount fields + 1) = false
    ∧ (∀ k, accepts fields k = true → k ≤ fieldCount fields)
    ∧ fieldCount [] = 0 := by
  rw [fieldCount_eq]
  refine ⟨by simp [accepts], by simp [accepts], ?_, ?_⟩
  · intro k hk
    simpa [accepts] using hk
  · rw [fieldCount_eq]
    rfl

/-- C6. Descriptor layout invariant: any target type and field-type sequence
accepted by the descriptor's compatibility check pack — under the standard
aggregate layout rules — to exactly the target's size and alignment; and the
check is no dead letter: the automatically derived sequence of every
well-formed aggregate passes it. (In the source the check is a
`static_assert`, so a violation is necessarily a compile-time failure, with
the diagnostic "reflection tuple is not compatible with target type".) -/
theorem descriptor_layout_invariant :
    (∀ (T : Ty) (Rs : List Ty), descriptorOk T Rs = true →
      tySize (Ty.struct Rs) = tySize T ∧ alignOf (Ty.struct Rs) = alignOf T)
    ∧ (∀ fields : List Ty, wfFields fields = true →
        descriptorOk (Ty.struct fields) (loopholeTuple fields) = true) := by
  constructor
  · intro T Rs h
    simpa only [descriptorOk, Bool.and_eq_true, decide_eq_true_eq] using h
  · intro fields h
    exact descriptorOk_loophole h

/-- C7. Nested aggregates: a field whose type is itself an aggregate occupies
exactly one entry of the field-type sequence — the nested aggregate type
itself, not its flattened fields — and reflecting the nested reference again
reaches exactly the memory obtained by reflecting the outer instance's nested
field directly: outer base plus the nested field's offset plus the inner
field's offset within the nested aggregate. -/
theorem nested_aggregates (pre post gs : List Ty) (base j : Nat)
    (h : wfFields (pre ++ Ty.struct gs :: post) = true)
    (_hj : j < (loopholeTuple gs).length) :
    (loopholeTuple (pre ++ Ty.struct gs :: post)).getD (slotTypes pre).length (Ty.scalar 0 1)
        = Ty.struct gs
    ∧ (loopholeTuple (pre ++ Ty.struct gs :: post)).length
        = (slotTypes pre).length + 1 + (slotTypes post).length
    ∧ memberAddr gs
        (memberAddr (pre ++ Ty.struct gs :: post) base (slotTypes pre).length).toNat j
      = ((base + (trueOffsets (pre ++ Ty.struct gs :: post)).getD (slotTypes pre).length 0
          + (trueOffsets gs).getD j 0 : Nat) : Int) := by
  have hsplit : slotTypes (pre ++ Ty.struct gs :: post)
      = slotTypes pre ++ Ty.struct gs :: slotTypes post := by
    rw [slotTypes_append pre (Ty.struct gs :: post)]
    simp only [slotTypes, List.map_cons, List.flatten_cons, slotsOfField,
      List.singleton_append]
  have hgs : wfFields gs = true := by
    rw [wfFields_append] at h
    simp only [Bool.and_eq_true, wfFields] at h
    have := h.2.1
    simpa [wfTy] using this
  refine ⟨?_, ?_, ?_⟩
  · rw [loopholeTuple_eq, hsplit]
    exact getD_append_length _ _ _ _
  · rw [loopholeTuple_eq, hsplit]
    simp only [List.length_append, List.length_cons]
    omega
  · have houter := memberAddr_eq h base (slotTypes pre).length
    have htn : (memberAddr (pre ++ Ty.struct gs :: post) base (slotTypes pre).length).toNat
        = base + (trueOffsets (pre ++ Ty.struct gs :: post)).getD (slotTypes pre).length 0 := by
      rw [houter]
      exact Int.toNat_ofNat _
    rw [htn, memberAddr_eq hgs]

/-- C8 (corrected). Bounded counting search: the field-counting search
terminates on every type — the number of trial arities it probes is exactly
the number of initializer slots plus two (1 + length successful trials from
arity 0 up, plus the final failing trial), a bound statically determined by
the type itself. There is, however, no type-independent fixed upper bound
on the number of trial arities (see the counterexample theorem). -/
theorem counting_search_terminates_bounded (fields : List Ty) :
    numTrials fields = (slotTypes fields).length + 2 :=
  numTrials_eq fields

/-- C8, counterexample to the claim as stated: there is no fixed upper bound
`B` on the number of trial arities valid for all types — a type with `B + 1`
scalar fields forces `B + 3` trials. -/
theorem counting_search_no_fixed_bound :
    ¬ ∃ B : Nat, ∀ fields : List Ty, numTrials fields ≤ B := by
  rintro ⟨B, hB⟩
  have h1 := hB (List.replicate (B + 1) (Ty.scalar 1 1))
  rw [numTrials_eq, slotTypes_replicate_scalar_len (B + 1)] at h1
  omega

/-- C9. Implicit offset invariants: for every descriptor, the computed offset
of field 0 is exactly 0, every computed offset is non-negative, and offsets
are monotonically non-decreasing in the field index. -/
theorem offset_invariants (fields : List Ty) (h : wfFields fields = true) :
    offset fields 0 = 0
    ∧ (∀ i, i < (loopholeTuple fields).length → 0 ≤ offset fields i)
    ∧ (∀ i j, i ≤ j → j < (loopholeTuple fields).length →
        offset fields i ≤ offset fields j) := by
  refine ⟨by unfold offset; omega, ?_, ?_⟩
  · intro i _
    rw [offset_eq h]
    exact Int.ofNat_nonneg _
  · intro i j hij hj
    rw [offset_eq h, offset_eq h]
    exact Int.ofNat_le_ofNat_of_le (trueOffsets_mono h hij hj)

/-- C10. Storage-cell fidelity: for every field type whose size is a multiple
of its alignment (true of every C++ object type), the probing cell
`storage_t<sizeof(R), alignof(R)>` has size exactly `sizeof(R)` and alignment
exactly `alignof(R)`; consequently the storage-cell sequence of a well-formed
reflection tuple occupies memory identically to the real field sequence. -/
theorem storage_cell_fidelity (R : Ty) (hA : 0 < alignOf R)
    (hdvd : alignOf R ∣ tySize R) (Rs : List Ty) (hwf : wfFields Rs = true) :
    cellSize (tySize R) (alignOf R) = tySize R
    ∧ cellAlign (alignOf R) = alignOf R
    ∧ storageOffsets Rs = layoutFrom 0 (Rs.map sizeAlign) := by
  have hca : cellAlign (alignOf R) = alignOf R := Nat.max_eq_left hA
  refine ⟨?_, hca, ?_⟩
  · unfold cellSize
    rw [hca]
    exact alignTo_eq_of_dvd hA hdvd
  · unfold storageOffsets
    congr 1
    exact List.map_congr_left (fun u hu => storageItem_eq (wfFields_mem hwf u hu))

/-! ## Witnesses

Concrete instances mirroring the repository's test shapes:
`point_t { double coords[2]; }` and `circle_t { point_t center; double radius; }`
with `double` of size 8 and alignment 8. -/

/-- Witness for C1, at `circle_t` based at address 100, field index 1 (the
radius, at true offset 16). -/
theorem round_trip_identity_witness :
    wfFields [Ty.struct [Ty.array (Ty.scalar 8 8) 2], Ty.scalar 8 8] = true
    ∧ memberAddr [Ty.struct [Ty.array (Ty.scalar 8 8) 2], Ty.scalar 8 8] 100 1
        = ((100 + (trueOffsets [Ty.struct [Ty.array (Ty.scalar 8 8) 2],
            Ty.scalar 8 8]).getD 1 0 : Nat) : Int) :=
  ⟨by simp [wfFields, wfTy],
    round_trip_identity [Ty.struct [Ty.array (Ty.scalar 8 8) 2], Ty.scalar 8 8]
      (by simp [wfFields, wfTy]) 100 1
      (by rw [loopholeTuple_eq]; simp [slotTypes, slotsOfField])⟩

/-- Witness for C2, at `circle_t`. -/
theorem mechanism_parity_witness :
    wfFields [Ty.struct [Ty.array (Ty.scalar 8 8) 2], Ty.scalar 8 8] = true
    ∧ ((provideTuple [Ty.struct [Ty.array (Ty.scalar 8 8) 2], Ty.scalar 8 8]).length
        = (loopholeTuple [Ty.struct [Ty.array (Ty.scalar 8 8) 2], Ty.scalar 8 8]).length
      ∧ provideTuple [Ty.struct [Ty.array (Ty.scalar 8 8) 2], Ty.scalar 8 8]
        = loopholeTuple [Ty.struct [Ty.array (Ty.scalar 8 8) 2], Ty.scalar 8 8]
      ∧ storageOffsets (provideTuple [Ty.struct [Ty.array (Ty.scalar 8 8) 2], Ty.scalar 8 8])
        = storageOffsets (loopholeTuple [Ty.struct [Ty.array (Ty.scalar 8 8) 2],
            Ty.scalar 8 8])) :=
  ⟨by simp [wfFields, wfTy],
    mechanism_parity [Ty.struct [Ty.array (Ty.scalar 8 8) 2], Ty.scalar 8 8]
      (by simp [wfFields, wfTy])⟩

/-- Witness for C3: `struct { int pad; double a[2]; }`-like shape, the array
field between a scalar prefix and an empty suffix. -/
theorem array_flattening_witness :
    wfTy (Ty.array (Ty.scalar 8 8) 2) = true
    ∧ (loopholeTuple ([Ty.scalar 4 4] ++ Ty.array (Ty.scalar 8 8) 2 :: [])
        = loopholeTuple [Ty.scalar 4 4] ++ List.replicate 2 (Ty.scalar 8 8)
          ++ loopholeTuple []
      ∧ provideTuple ([Ty.scalar 4 4] ++ Ty.array (Ty.scalar 8 8) 2 :: [])
        = provideTuple [Ty.scalar 4 4] ++ List.replicate 2 (Ty.scalar 8 8)
          ++ provideTuple []) :=
  ⟨by simp [wfTy],
    array_flattening [Ty.scalar 4 4] [] 8 8 2 (by simp [wfTy])⟩

/-- Witness for C4, at `circle_t` based at address 0: writing 8 bytes of value
7 through the view's reference to field 1 (the radius). -/
theorem write_through_witness :
    wfFields [Ty.struct [Ty.array (Ty.scalar 8 8) 2], Ty.scalar 8 8] = true
    ∧ List.length (List.replicate 8 7)
        = fieldSize [Ty.struct [Ty.array (Ty.scalar 8 8) 2], Ty.scalar 8 8] 1
    ∧ (readField
        (writeBytes (fun _ => 0)
          (memberAddr [Ty.struct [Ty.array (Ty.scalar 8 8) 2], Ty.scalar 8 8] 0 1).toNat
          (List.replicate 8 7))
        [Ty.struct [Ty.array (Ty.scalar 8 8) 2], Ty.scalar 8 8] 0 1
        = List.replicate 8 7
      ∧ ∀ j, j < (loopholeTuple [Ty.struct [Ty.array (Ty.scalar 8 8) 2],
            Ty.scalar 8 8]).length → j ≠ 1 →
          readField
            (writeBytes (fun _ => 0)
              (memberAddr [Ty.struct [Ty.array (Ty.scalar 8 8) 2], Ty.scalar 8 8] 0 1).toNat
              (List.replicate 8 7))
            [Ty.struct [Ty.array (Ty.scalar 8 8) 2], Ty.scalar 8 8] 0 j
            = readField (fun _ => 0) [Ty.struct [Ty.array (Ty.scalar 8 8) 2],
                Ty.scalar 8 8] 0 j) :=
  ⟨by simp [wfFields, wfTy],
    by
      rw [fieldSize_eq]
      simp [slotTypes, slotsOfField, tySize],
    write_through [Ty.struct [Ty.array (Ty.scalar 8 8) 2], Ty.scalar 8 8]
      (by simp [wfFields, wfTy]) 0 1
      (by rw [loopholeTuple_eq]; simp [slotTypes, slotsOfField])
      (List.replicate 8 7)
      (by rw [fieldSize_eq]; simp [slotTypes, slotsOfField, tySize])
      (fun _ => 0)⟩

/-- Witness for C5, at `circle_t` (two slots, counted 2). -/
theorem field_counter_correct_witness :
    accepts [Ty.struct [Ty.array (Ty.scalar 8 8) 2], Ty.scalar 8 8]
        (fieldCount [Ty.struct [Ty.array (Ty.scalar 8 8) 2], Ty.scalar 8 8]) = true
    ∧ accepts [Ty.struct [Ty.array (Ty.scalar 8 8) 2], Ty.scalar 8 8]
        (fieldCount [Ty.struct [Ty.array (Ty.scalar 8 8) 2], Ty.scalar 8 8] + 1) = false
    ∧ (∀ k, accepts [Ty.struct [Ty.array (Ty.scalar 8 8) 2], Ty.scalar 8 8] k = true →
        k ≤ fieldCount [Ty.struct [Ty.array (Ty.scalar 8 8) 2], Ty.scalar 8 8])
    ∧ fieldCount [] = 0 :=
  field_counter_correct [Ty.struct [Ty.array (Ty.scalar 8 8) 2], Ty.scalar 8 8]

/-- Witness for C6: `point_t` against the sequence `double, double` the
loophole derives for it. -/
theorem descriptor_layout_invariant_witness :
    descriptorOk (Ty.struct [Ty.array (Ty.scalar 8 8) 2])
        [Ty.scalar 8 8, Ty.scalar 8 8] = true
    ∧ (tySize (Ty.struct [Ty.scalar 8 8, Ty.scalar 8 8])
          = tySize (Ty.struct [Ty.array (Ty.scalar 8 8) 2])
        ∧ alignOf (Ty.struct [Ty.scalar 8 8, Ty.scalar 8 8])
          = alignOf (Ty.struct [Ty.array (Ty.scalar 8 8) 2]))
    ∧ wfFields [Ty.array (Ty.scalar 8 8) 2] = true
    ∧ descriptorOk (Ty.struct [Ty.array (Ty.scalar 8 8) 2])
        (loopholeTuple [Ty.array (Ty.scalar 8 8) 2]) = true := by
  have hok : descriptorOk (Ty.struct [Ty.array (Ty.scalar 8 8) 2])
      [Ty.scalar 8 8, Ty.scalar 8 8] = true := by
    simp [descriptorOk, tySize, structEnd, alignOf, alignsMax, alignTo]
  exact ⟨hok, descriptor_layout_invariant.1 _ _ hok, by simp [wfFields, wfTy],
    descriptor_layout_invariant.2 _ (by simp [wfFields, wfTy])⟩

/-- Witness for C7: `circle_t`, whose field 0 is the nested `point_t`; the
second-level reflection of inner field 1 lands at outer base 100 + 0 + 8. -/
theorem nested_aggregates_witness :
    wfFields ([] ++ Ty.struct [Ty.array (Ty.scalar 8 8) 2] :: [Ty.scalar 8 8]) = true
    ∧ 1 < (loopholeTuple [Ty.array (Ty.scalar 8 8) 2]).length
    ∧ ((loopholeTuple ([] ++ Ty.struct [Ty.array (Ty.scalar 8 8) 2] :: [Ty.scalar 8 8])).getD
          (slotTypes []).length (Ty.scalar 0 1) = Ty.struct [Ty.array (Ty.scalar 8 8) 2]
      ∧ (loopholeTuple ([] ++ Ty.struct [Ty.array (Ty.scalar 8 8) 2] :: [Ty.scalar 8 8])).length
          = (slotTypes []).length + 1 + (slotTypes [Ty.scalar 8 8]).length
      ∧ memberAddr [Ty.array (Ty.scalar 8 8) 2]
          (memberAddr ([] ++ Ty.struct [Ty.array (Ty.scalar 8 8) 2] :: [Ty.scalar 8 8]) 100
            (slotTypes []).length).toNat 1
        = ((100 + (trueOffsets ([] ++ Ty.struct [Ty.array (Ty.scalar 8 8) 2] ::
              [Ty.scalar 8 8])).getD (slotTypes []).length 0
            + (trueOffsets [Ty.array (Ty.scalar 8 8) 2]).getD 1 0 : Nat) : Int)) :=
  ⟨by simp [wfFields, wfTy],
    by rw [loopholeTuple_eq]; simp [slotTypes, slotsOfField, flatten_replicate_replicate],
    nested_aggregates [] [Ty.scalar 8 8] [Ty.array (Ty.scalar 8 8) 2] 100 1
      (by simp [wfFields, wfTy])
      (by rw [loopholeTuple_eq]; simp [slotTypes, slotsOfField, flatten_replicate_replicate])⟩

/-- Witness for C8 (amended), at `circle_t`: exactly 2 + 2 trial arities. -/
theorem counting_search_terminates_bounded_witness :
    numTrials [Ty.struct [Ty.array (Ty.scalar 8 8) 2], Ty.scalar 8 8]
      = (slotTypes [Ty.struct [Ty.array (Ty.scalar 8 8) 2], Ty.scalar 8 8]).length + 2 :=
  counting_search_terminates_bounded [Ty.struct [Ty.array (Ty.scalar 8 8) 2], Ty.scalar 8 8]

/-- Witness for C9, at `circle_t`. -/
theorem offset_invariants_witness :
    wfFields [Ty.struct [Ty.array (Ty.scalar 8 8) 2], Ty.scalar 8 8] = true
    ∧ (offset [Ty.struct [Ty.array (Ty.scalar 8 8) 2], Ty.scalar 8 8] 0 = 0
      ∧ (∀ i, i < (loopholeTuple [Ty.struct [Ty.array (Ty.scalar 8 8) 2],
            Ty.scalar 8 8]).length →
          0 ≤ offset [Ty.struct [Ty.array (Ty.scalar 8 8) 2], Ty.scalar 8 8] i)
      ∧ (∀ i j, i ≤ j → j < (loopholeTuple [Ty.struct [Ty.array (Ty.scalar 8 8) 2],
            Ty.scalar 8 8]).length →
          offset [Ty.struct [Ty.array (Ty.scalar 8 8) 2], Ty.scalar 8 8] i
            ≤ offset [Ty.struct [Ty.array (Ty.scalar 8 8) 2], Ty.scalar 8 8] j)) :=
  ⟨by simp [wfFields, wfTy],
    offset_invariants [Ty.struct [Ty.array (Ty.scalar 8 8) 2], Ty.scalar 8 8]
      (by simp [wfFields, wfTy])⟩

/-- Witness for C10: `R = double` (size 8, alignment 8) and the reflection
tuple `int, double`. -/
theorem storage_cell_fidelity_witness :
    0 < alignOf (Ty.scalar 8 8)
    ∧ alignOf (Ty.scalar 8 8) ∣ tySize (Ty.scalar 8 8)
    ∧ wfFields [Ty.scalar 4 4, Ty.scalar 8 8] = true
    ∧ (cellSize (tySize (Ty.scalar 8 8)) (alignOf (Ty.scalar 8 8)) = tySize (Ty.scalar 8 8)
      ∧ cellAlign (alignOf (Ty.scalar 8 8)) = alignOf (Ty.scalar 8 8)
      ∧ storageOffsets [Ty.scalar 4 4, Ty.scalar 8 8]
          = layoutFrom 0 ([Ty.scalar 4 4, Ty.scalar 8 8].map sizeAlign)) :=
  ⟨by simp [alignOf],
    by simp [alignOf, tySize],
    by simp [wfFields, wfTy],
    storage_cell_fidelity (Ty.scalar 8 8) (by simp [alignOf])
      (by simp [alignOf, tySize]) [Ty.scalar 4 4, Ty.scalar 8 8]
      (by simp [wfFields, wfTy])⟩

end Reflector
